import Mathlib

/-!
Verification of the snarkVM program-data layer: the `Access` path grammar
(`src/console/program/src/data/access/parse.rs`), the `ArrayType` factory
(`src/console/program/src/data_types/array_type/mod.rs`), and the
serialization trait contracts (`src/utilities/src/serialize/traits.rs`).

Strings are embedded as `List Char`; machine integers as `Nat` with explicit
bounds (`< 2 ^ 32` for `u32`, `< 256` for `u8`); fallible operations return
`Option` or `Except`.
-/

namespace SnarkVM

/-! ## Decimal digit runs

`parse_index` in `parse.rs` is built from nom combinators:
`tag "["`, then `recognize (many1 (terminated (one_of "0123456789") (many0 (char '_'))))`,
then `map_res (tag "]") (fun _ => primitive.replace('_', "").parse::<u32>())`.
We embed each combinator's effect directly.
-/

/-- The characters accepted by `one_of "0123456789"`. -/
def isDecDigit (c : Char) : Bool :=
  '0' ≤ c && c ≤ '9'

/-- A character consumed inside the digit run: a digit, or an underscore
attached by `many0 (char '_')`. -/
def isRunChar (c : Char) : Bool :=
  isDecDigit c || c == '_'

/-- `dropWhile` never lengthens a list (termination measure for `digitRun`). -/
theorem dropWhile_length_le (p : Char → Bool) (l : List Char) :
    (l.dropWhile p).length ≤ l.length := by
  induction l with
  | nil => simp [List.dropWhile]
  | cons x xs ih =>
    simp only [List.dropWhile]
    cases p x
    · simp
    · simpa using Nat.le_succ_of_le ih

/-- `recognize (many1 (terminated (one_of "0123456789") (many0 (char '_'))))`:
repeatedly consume one digit followed by any number of underscores, at least
once. Returns `(consumed, remainder)`; consumed is `[]` exactly when the
`many1` fails (input does not start with a digit). -/
def digitRun : List Char → List Char × List Char
  | [] => ([], [])
  | c :: rest =>
    if isDecDigit c then
      let us := rest.takeWhile (fun x => x == '_')
      let r1 := rest.dropWhile (fun x => x == '_')
      let (more, r2) := digitRun r1
      (c :: (us ++ more), r2)
    else ([], c :: rest)
termination_by s => s.length
decreasing_by
  simp only [List.length_cons]
  have h := dropWhile_length_le (fun x => x == '_') rest
  omega

/-- The value of a decimal digit character. -/
def digitVal (c : Char) : Nat :=
  c.toNat - 48

/-- Rust's `str::parse::<u32>` digit accumulation on an all-digit string:
fold the digits most-significant first. -/
def digitsVal (ds : List Char) : Nat :=
  ds.foldl (fun acc c => 10 * acc + digitVal c) 0

/-- `parse_index` from `Access::parse`: parse `[`, a digit run (digits each
followed by any number of underscores), `]`, then strip underscores and parse
the remaining digits as a decimal `u32`; overflow past `2^32 - 1` fails. -/
def parse_index (s : List Char) : Option (List Char × Nat) :=
  match s with
  | [] => none
  | c0 :: s1 =>
    if c0 = '[' then
      let (run, s2) := digitRun s1
      if run.isEmpty then none
      else
        match s2 with
        | [] => none
        | c1 :: s3 =>
          if c1 = ']' then
            let stripped := run.filter (fun c => c != '_')
            let v := digitsVal stripped
            if v < 2 ^ 32 then some (s3, v) else none
          else none
    else none

/-! ## Identifiers

`Identifier::parse` is an external collaborator (its source is not part of
this repository). -/

/-- Modelled from the spec: the first character of an identifier is a
(lowercase ASCII) letter — "identifiers cannot start with a digit". -/
def isIdentHead (c : Char) : Bool :=
  'a' ≤ c && c ≤ 'z'

/-- Modelled from the spec: an identifier character is a letter, a digit or
an underscore. -/
def isIdentChar (c : Char) : Bool :=
  isIdentHead c || isDecDigit c || c == '_'

/-- Modelled from the spec: the field-capacity bound on identifier length
("bound to fit one field element"). -/
def identMaxLength : Nat := 31

/-- Modelled from the spec: validity of an `Identifier` — a nonempty run of
identifier characters starting with a letter, within the capacity bound. -/
def validIdentifier (id : List Char) : Bool :=
  match id with
  | [] => false
  | c :: _ => isIdentHead c && id.all isIdentChar && decide (id.length ≤ identMaxLength)

/-- Modelled from the spec: `Identifier::parse`, the delegated identifier
lexer — consumes the maximal prefix of identifier characters, requiring it to
be nonempty, to start with a letter, and to fit the capacity bound. -/
def identifierParse (s : List Char) : Option (List Char × List Char) :=
  let run := s.takeWhile isIdentChar
  let rest := s.dropWhile isIdentChar
  match run with
  | [] => none
  | c :: _ =>
    if isIdentHead c && decide (run.length ≤ identMaxLength) then some (rest, run)
    else none

/-! ## Access -/

/-- `Access<N>`: an array-index access or a named member access. -/
inductive Access where
  | Index (i : Nat)
  | Member (id : List Char)
deriving DecidableEq, Repr

/-- The values of `Access` constructible in the source: the index fits in a
`u32`; the member holds a valid `Identifier`. -/
def Access.Constructible : Access → Prop
  | .Index i => i < 2 ^ 32
  | .Member id => validIdentifier id = true

instance : DecidablePred Access.Constructible := fun a =>
  match a with
  | .Index _ => inferInstanceAs (Decidable (_ < _))
  | .Member _ => inferInstanceAs (Decidable (_ = _))

/-- `Access::parse`: `alt` of the index branch (`parse_index`, wrapped as
`Index`) and the member branch (`tag "."` then `Identifier::parse`, wrapped
as `Member`), tried in that order. -/
def Access.parse (s : List Char) : Option (List Char × Access) :=
  match parse_index s with
  | some (rest, n) => some (rest, .Index n)
  | none =>
    match s with
    | [] => none
    | c0 :: rest =>
      if c0 = '.' then
        match identifierParse rest with
        | some (rest1, id) => some (rest1, .Member id)
        | none => none
      else none

/-- The decimal rendering of a natural number (Rust's `Display` for `u32`):
most-significant digit first, no underscores, no leading zeros except for 0. -/
def natDigits (n : Nat) : List Char :=
  if n < 10 then [Char.ofNat (48 + n)]
  else natDigits (n / 10) ++ [Char.ofNat (48 + n % 10)]
termination_by n
decreasing_by
  exact Nat.div_lt_self (by omega) (by omega)

/-- `Display for Access`: `Index i` prints as `[i]`, `Member id` as `.id`. -/
def Access.display : Access → List Char
  | .Index i => '[' :: (natDigits i ++ [']'])
  | .Member id => '.' :: id

/-- `Debug for Access`: delegates to `Display`. -/
def Access.debug (a : Access) : List Char :=
  Access.display a

/-- `FromStr for Access`: run the parser; demand an empty remainder, else
fail naming the remainder; propagate parser failure. -/
def Access.from_str (s : List Char) : Except String Access :=
  match Access.parse s with
  | some (remainder, object) =>
    if remainder.isEmpty then .ok object
    else .error ("Failed to parse string. Found invalid character in: \"" ++ remainder.asString ++ "\"")
  | none => .error "Failed to parse string."

/-! ## ArrayType (`array_type/mod.rs`) -/

/-- `ArrayType<N>`: an element type paired with the array length (a `u32`).
The element type is an external collaborator, kept abstract. -/
structure ArrayType (E : Type) where
  element_type : E
  length : Nat
deriving DecidableEq

/-- `ArrayType::new`: reject a zero length ("must have at least one element"),
reject a length above `N::MAX_ARRAY_ENTRIES` with an error naming the
ceiling, otherwise construct the instance with the given fields. -/
def ArrayType.new {E : Type} (maxArrayEntries : Nat) (element_type : E) (length : Nat) :
    Except String (ArrayType E) :=
  if length = 0 then .error "The array must have at least one element"
  else if maxArrayEntries < length then
    .error ("The array must have at most " ++ toString maxArrayEntries ++ " elements")
  else .ok { element_type := element_type, length := length }

/-! ## Serialization traits (`serialize/traits.rs`) -/

/-- The `Compress` mode switch. -/
inductive Compress where
  | Yes
  | No
deriving DecidableEq

/-- The `Validate` mode switch. -/
inductive Validate where
  | Yes
  | No
deriving DecidableEq

/-- The `Flags` trait surface: the `BIT_SIZE` constant and the two required
methods. Bytes are naturals below 256. -/
structure FlagsImpl (F : Type) where
  BIT_SIZE : Nat
  u8_bitmask : F → Nat
  from_u8 : Nat → Option F

/-- The default method `Flags::from_u8_remove_flags`: run `from_u8`; only on
a match, clear the matched bitmask's bits (`*value &= !f.u8_bitmask()`, with
`!` the `u8` complement `255 ^^^ mask`); on no match leave the byte as is.
Returns the optional flag together with the resulting byte. -/
def FlagsImpl.from_u8_remove_flags {F : Type} (inst : FlagsImpl F) (value : Nat) :
    Option F × Nat :=
  match inst.from_u8 value with
  | some f => (some f, value &&& (255 ^^^ inst.u8_bitmask f))
  | none => (none, value)

/-- The default method `Valid::batch_check`: call `check` on each item of the
sequence in order, returning the first error and short-circuiting, or success
when every `check` passes. -/
def batch_check {α ε : Type} (check : α → Except ε Unit) : List α → Except ε Unit
  | [] => .ok ()
  | x :: xs =>
    match check x with
    | .error e => .error e
    | .ok _ => batch_check check xs

/-- `batch_check`, instrumented to record (in order) the items `check` was
called on. -/
def batch_check_trace {α ε : Type} (check : α → Except ε Unit) :
    List α → Except ε Unit × List α
  | [] => (.ok (), [])
  | x :: xs =>
    match check x with
    | .error e => (.error e, [x])
    | .ok _ =>
      let (res, visited) := batch_check_trace check xs
      (res, x :: visited)

/-- The required entry points of `CanonicalSerialize`: the writer is embedded
as the returned byte list; `serialized_size` reports a byte count. -/
structure CanonicalSerialize (α : Type) where
  serialize_with_mode : α → Compress → List Nat
  serialized_size : α → Compress → Nat

/-- Default method `serialize_compressed`: `serialize_with_mode` at
`Compress::Yes`. -/
def CanonicalSerialize.serialize_compressed {α : Type} (inst : CanonicalSerialize α)
    (a : α) : List Nat :=
  inst.serialize_with_mode a Compress.Yes

/-- Default method `compressed_size`: `serialized_size` at `Compress::Yes`. -/
def CanonicalSerialize.compressed_size {α : Type} (inst : CanonicalSerialize α)
    (a : α) : Nat :=
  inst.serialized_size a Compress.Yes

/-- Default method `serialize_uncompressed`: `serialize_with_mode` at
`Compress::No`. -/
def CanonicalSerialize.serialize_uncompressed {α : Type} (inst : CanonicalSerialize α)
    (a : α) : List Nat :=
  inst.serialize_with_mode a Compress.No

/-- Default method `uncompressed_size`: `serialized_size` at `Compress::No`. -/
def CanonicalSerialize.uncompressed_size {α : Type} (inst : CanonicalSerialize α)
    (a : α) : Nat :=
  inst.serialized_size a Compress.No

/-- Modelled from the spec: a lawful implementation of `CanonicalSerialize`.
The repository contains only the trait declaration; per the spec,
`serialized_size(compress)` "must exactly equal the byte count
`serialize_with_mode` would write for the same mode", so every implementation
carries that obligation. -/
structure LawfulCanonicalSerialize (α : Type) extends CanonicalSerialize α where
  size_agreement :
    ∀ (a : α) (c : Compress), serialized_size a c = (serialize_with_mode a c).length

/-- The required entry point of `CanonicalDeserialize`: the reader is the
input byte list. -/
structure CanonicalDeserialize (α : Type) where
  deserialize_with_mode : List Nat → Compress → Validate → Except String α

/-- Default method `deserialize_compressed`: `Compress::Yes, Validate::Yes`. -/
def CanonicalDeserialize.deserialize_compressed {α : Type} (inst : CanonicalDeserialize α)
    (reader : List Nat) : Except String α :=
  inst.deserialize_with_mode reader Compress.Yes Validate.Yes

/-- Default method `deserialize_compressed_unchecked`: `Compress::Yes,
Validate::No`. -/
def CanonicalDeserialize.deserialize_compressed_unchecked {α : Type}
    (inst : CanonicalDeserialize α) (reader : List Nat) : Except String α :=
  inst.deserialize_with_mode reader Compress.Yes Validate.No

/-- Default method `deserialize_uncompressed`: `Compress::No, Validate::Yes`. -/
def CanonicalDeserialize.deserialize_uncompressed {α : Type}
    (inst : CanonicalDeserialize α) (reader : List Nat) : Except String α :=
  inst.deserialize_with_mode reader Compress.No Validate.Yes

/-- Default method `deserialize_uncompressed_unchecked`: `Compress::No,
Validate::No`. -/
def CanonicalDeserialize.deserialize_uncompressed_unchecked {α : Type}
    (inst : CanonicalDeserialize α) (reader : List Nat) : Except String α :=
  inst.deserialize_with_mode reader Compress.No Validate.No

/-- The language recognized by
`recognize (many1 (terminated (one_of "0123456789") (many0 (char '_'))))`:
a nonempty string of digits and underscores that begins with a digit. -/
def goodRun (run : List Char) : Bool :=
  match run with
  | [] => false
  | c :: _ => isDecDigit c && run.all isRunChar

/-- A concrete two-variant `Flags` implementation (the documentation's
example: bitmasks `0` and `1 <<< 7`, `BIT_SIZE` 1), used as witness data. -/
def boolFlags : FlagsImpl Bool where
  BIT_SIZE := 1
  u8_bitmask := fun f => if f then 128 else 0
  from_u8 := fun v => some (v.testBit 7)

/-- A concrete lawful serializer (`u32` little-endian, four bytes in either
mode), exhibiting a lawful implementation of `CanonicalSerialize`. -/
def leU32Serializer : LawfulCanonicalSerialize Nat where
  serialize_with_mode := fun a _ =>
    [a % 256, a / 256 % 256, a / 65536 % 256, a / 16777216 % 256]
  serialized_size := fun _ _ => 4
  size_agreement := fun _ _ => rfl

/-- A concrete integrity check (fails on nonzero numbers), used as witness
data for `batch_check`. -/
def checkZero (n : Nat) : Except String Unit :=
  if n = 0 then .ok () else .error "nonzero"

/-! ## Lemmas: the digit run -/

theorem isRunChar_of_underscore {c : Char} (h : (c == '_') = true) : isRunChar c = true := by
  have hc : c = '_' := eq_of_beq h
  subst hc
  decide

theorem isRunChar_of_digit {c : Char} (h : isDecDigit c = true) : isRunChar c = true := by
  simp [isRunChar, h]

/-- `digitRun` on an input that does not start with a digit consumes
nothing. -/
theorem digitRun_not_digit {c : Char} {rest : List Char} (h : isDecDigit c = false) :
    digitRun (c :: rest) = ([], c :: rest) := by
  rw [digitRun]
  simp [h]

/-- On an input whose head is a digit, `digitRun` consumes exactly the
maximal prefix of digits-and-underscores. -/
theorem digitRun_cons_of_digit :
    ∀ (n : Nat) (c : Char) (rest : List Char), rest.length ≤ n → isDecDigit c = true →
      digitRun (c :: rest) =
        ((c :: rest).takeWhile isRunChar, (c :: rest).dropWhile isRunChar) := by
  intro n
  induction n with
  | zero =>
    intro c rest hlen hc
    have hrest : rest = [] := List.length_eq_zero.mp (Nat.le_zero.mp hlen)
    subst hrest
    have hrc : isRunChar c = true := isRunChar_of_digit hc
    simp [digitRun, hc, hrc, List.takeWhile, List.dropWhile]
  | succ n ih =>
    intro c rest hlen hc
    have hrc : isRunChar c = true := isRunChar_of_digit hc
    rw [List.takeWhile_cons_of_pos hrc, List.dropWhile_cons_of_pos hrc]
    rw [digitRun]
    simp only [hc, if_true]
    have hus : ∀ a ∈ rest.takeWhile (fun x => x == '_'), isRunChar a = true :=
      fun a ha => isRunChar_of_underscore (List.mem_takeWhile_imp (p := fun x => x == '_') ha)
    have hsplit :
        rest.takeWhile (fun x => x == '_') ++ rest.dropWhile (fun x => x == '_') = rest :=
      List.takeWhile_append_dropWhile _ _
    have htake : rest.takeWhile isRunChar =
        rest.takeWhile (fun x => x == '_') ++
          (rest.dropWhile (fun x => x == '_')).takeWhile isRunChar := by
      conv_lhs => rw [← hsplit]
      exact List.takeWhile_append_of_pos hus
    have hdrop : rest.dropWhile isRunChar =
        (rest.dropWhile (fun x => x == '_')).dropWhile isRunChar := by
      conv_lhs => rw [← hsplit]
      exact List.dropWhile_append_of_pos hus
    rw [htake, hdrop]
    cases hr1 : rest.dropWhile (fun x => x == '_') with
    | nil =>
      simp [digitRun, List.takeWhile, List.dropWhile]
    | cons d r1 =>
      have hw : rest.dropWhile (fun x => x == '_') ≠ [] := by rw [hr1]; simp
      have hd_ne : (d == '_') = false := by
        have hhd := List.head_dropWhile_not (fun x => x == '_') rest hw
        simpa [hr1] using hhd
      by_cases hd : isDecDigit d = true
      · have hlen1 : r1.length ≤ n := by
          have h1 := dropWhile_length_le (fun x => x == '_') rest
          rw [hr1] at h1
          simp only [List.length_cons] at h1
          omega
        rw [ih d r1 hlen1 hd]
      · have hd1 : isDecDigit d = false := by simpa using hd
        have hnr : isRunChar d = false := by simp [isRunChar, hd1, hd_ne]
        rw [digitRun_not_digit hd1]
        rw [List.takeWhile_cons_of_neg (by simp [hnr]), List.dropWhile_cons_of_neg (by simp [hnr])]

/-- `digitRun` on a well-formed run followed by `]` consumes exactly the
run. -/
theorem digitRun_goodRun (run r : List Char) (h : goodRun run = true) :
    digitRun (run ++ ']' :: r) = (run, ']' :: r) := by
  match run with
  | [] => simp [goodRun] at h
  | c :: t =>
    have hc : isDecDigit c = true := by
      simp only [goodRun, Bool.and_eq_true] at h
      exact h.1
    have hall : ∀ a ∈ c :: t, isRunChar a = true := by
      simp only [goodRun, Bool.and_eq_true, List.all_eq_true] at h
      exact h.2
    have hcons : (c :: t) ++ ']' :: r = c :: (t ++ ']' :: r) := rfl
    rw [hcons, digitRun_cons_of_digit (t ++ ']' :: r).length c _ le_rfl hc, ← hcons]
    have hne : isRunChar ']' = false := by decide
    rw [List.takeWhile_append_of_pos hall, List.dropWhile_append_of_pos hall,
      List.takeWhile_cons_of_neg (by simp [hne]), List.dropWhile_cons_of_neg (by simp [hne])]
    simp

/-! ## Lemmas: decimal rendering -/

theorem digitChar_isDecDigit {d : Nat} (h : d < 10) : isDecDigit (Char.ofNat (48 + d)) = true := by
  interval_cases d <;> decide

theorem digitChar_ne_underscore {d : Nat} (h : d < 10) :
    ((Char.ofNat (48 + d)) != '_') = true := by
  interval_cases d <;> decide

theorem digitChar_val {d : Nat} (h : d < 10) : digitVal (Char.ofNat (48 + d)) = d := by
  interval_cases d <;> decide

theorem digitsVal_append (xs : List Char) (c : Char) :
    digitsVal (xs ++ [c]) = 10 * digitsVal xs + digitVal c := by
  simp [digitsVal, List.foldl_append]

/-- The decimal rendering is nonempty, made only of digit characters (never
underscores), and evaluates back to the rendered number. -/
theorem natDigits_spec (n : Nat) :
    natDigits n ≠ [] ∧
      (∀ c ∈ natDigits n, isDecDigit c = true ∧ (c != '_') = true) ∧
      digitsVal (natDigits n) = n := by
  induction n using Nat.strong_induction_on with
  | _ n ih =>
    by_cases h : n < 10
    · rw [natDigits, if_pos h]
      refine ⟨by simp, ?_, ?_⟩
      · intro c hc
        simp only [List.mem_singleton] at hc
        subst hc
        exact ⟨digitChar_isDecDigit h, digitChar_ne_underscore h⟩
      · show digitsVal ([] ++ [Char.ofNat (48 + n)]) = n
        rw [digitsVal_append, digitChar_val h]
        simp [digitsVal]
    · rw [natDigits, if_neg h]
      have hlt : n / 10 < n := Nat.div_lt_self (by omega) (by omega)
      obtain ⟨ihne, ihdig, ihval⟩ := ih (n / 10) hlt
      have hd : n % 10 < 10 := Nat.mod_lt _ (by omega)
      refine ⟨by simp, ?_, ?_⟩
      · intro c hc
        rw [List.mem_append] at hc
        rcases hc with hc | hc
        · exact ihdig c hc
        · simp only [List.mem_singleton] at hc
          subst hc
          exact ⟨digitChar_isDecDigit hd, digitChar_ne_underscore hd⟩
      · rw [digitsVal_append, digitChar_val hd, ihval]
        omega

/-- The decimal rendering of a number is a well-formed digit run. -/
theorem goodRun_natDigits (n : Nat) : goodRun (natDigits n) = true := by
  obtain ⟨hne, hdig, -⟩ := natDigits_spec n
  cases hnd : natDigits n with
  | nil => exact absurd hnd hne
  | cons c t =>
    rw [goodRun]
    have hmem : ∀ x ∈ c :: t, x ∈ natDigits n := by rw [hnd]; intro x hx; exact hx
    have hc : isDecDigit c = true := (hdig c (hmem c (by simp))).1
    rw [hc]
    simp only [Bool.true_and, List.all_eq_true]
    intro x hx
    exact isRunChar_of_digit (hdig x (hmem x hx)).1

/-- Stripping underscores from the decimal rendering is the identity. -/
theorem natDigits_filter (n : Nat) :
    (natDigits n).filter (fun c => c != '_') = natDigits n := by
  obtain ⟨-, hdig, -⟩ := natDigits_spec n
  exact List.filter_eq_self.mpr fun c hc => (hdig c hc).2

/-! ## Lemmas: `parse_index` -/

/-- Evaluation of `parse_index` on a bracketed well-formed digit run: the
result is the underscore-stripped decimal value, guarded by the `u32`
range check. -/
theorem parse_index_goodRun (run r : List Char) (h : goodRun run = true) :
    parse_index ('[' :: (run ++ ']' :: r)) =
      if digitsVal (run.filter (fun c => c != '_')) < 2 ^ 32
      then some (r, digitsVal (run.filter (fun c => c != '_'))) else none := by
  have hne : run.isEmpty = false := by
    cases run with
    | nil => simp [goodRun] at h
    | cons c t => simp
  rw [parse_index]
  simp only [if_pos rfl, digitRun_goodRun run r h]
  simp [hne]

/-- Full characterization of `parse_index` success: the input starts with
`[`, continues with a well-formed digit run, then `]` followed by the
remainder, and the value is the underscore-stripped decimal value, within
`u32` range. -/
theorem parse_index_some_iff (s r : List Char) (v : Nat) :
    parse_index s = some (r, v) ↔
      ∃ run, goodRun run = true ∧ s = '[' :: (run ++ ']' :: r) ∧
        digitsVal (run.filter (fun c => c != '_')) = v ∧ v < 2 ^ 32 := by
  constructor
  · intro h
    match s with
    | [] => simp [parse_index] at h
    | c0 :: s1 =>
      rw [parse_index] at h
      by_cases hc0 : c0 = '['
      · subst hc0
        rw [if_pos rfl] at h
        match s1 with
        | [] =>
          rw [show digitRun [] = ([], []) from by rw [digitRun]] at h
          simp at h
        | d :: t =>
          by_cases hd : isDecDigit d = true
          · rw [digitRun_cons_of_digit (d :: t).length d t (by simp) hd] at h
            have hrc : isRunChar d = true := isRunChar_of_digit hd
            rw [List.takeWhile_cons_of_pos hrc, List.dropWhile_cons_of_pos hrc] at h
            simp only [List.isEmpty_cons, Bool.false_eq_true, if_false] at h
            cases hs2 : t.dropWhile isRunChar with
            | nil => rw [hs2] at h; simp at h
            | cons c1 s3 =>
              rw [hs2] at h
              dsimp only at h
              by_cases hc1 : c1 = ']'
              · subst hc1
                rw [if_pos rfl] at h
                by_cases hv : digitsVal ((d :: t.takeWhile isRunChar).filter
                    (fun c => c != '_')) < 2 ^ 32
                · rw [if_pos hv] at h
                  simp only [Option.some.injEq, Prod.mk.injEq] at h
                  obtain ⟨hs3, hval⟩ := h
                  subst hs3
                  refine ⟨d :: t.takeWhile isRunChar, ?_, ?_, hval, hval ▸ hv⟩
                  · rw [goodRun]
                    rw [hd]
                    simp only [Bool.true_and, List.all_eq_true]
                    intro x hx
                    rcases List.mem_cons.mp hx with hx | hx
                    · subst hx; exact hrc
                    · exact List.mem_takeWhile_imp (p := isRunChar) hx
                  · have hsplit : t.takeWhile isRunChar ++ t.dropWhile isRunChar = t :=
                      List.takeWhile_append_dropWhile _ _
                    rw [hs2] at hsplit
                    simp only [List.cons_append]
                    rw [hsplit]
                · rw [if_neg hv] at h
                  simp at h
              · rw [if_neg hc1] at h
                simp at h
          · have hd1 : isDecDigit d = false := by simpa using hd
            rw [digitRun_not_digit hd1] at h
            simp at h
      · rw [if_neg hc0] at h
        simp at h
  · rintro ⟨run, hgood, rfl, hval, hlt⟩
    rw [parse_index_goodRun run r hgood, hval, if_pos hlt]

/-! ## Lemmas: identifiers and `Access` -/

/-- The identifier lexer consumes a valid identifier entirely. -/
theorem identifierParse_valid (id : List Char) (h : validIdentifier id = true) :
    identifierParse id = some ([], id) := by
  match id, h with
  | c :: t, h =>
    rw [validIdentifier] at h
    simp only [Bool.and_eq_true, List.all_eq_true, decide_eq_true_eq] at h
    obtain ⟨⟨hhead, hall⟩, hlen⟩ := h
    have htake : (c :: t).takeWhile isIdentChar = c :: t :=
      List.takeWhile_eq_self_iff.mpr hall
    have hdrop : (c :: t).dropWhile isIdentChar = [] :=
      List.dropWhile_eq_nil_iff.mpr hall
    rw [identifierParse]
    simp only [htake, hdrop]
    rw [if_pos (by simp only [hhead, Bool.true_and, decide_eq_true_eq]; exact hlen)]

/-- Parsing the display of a constructible index: the index branch fires and
recovers the index with an empty remainder. -/
theorem parse_index_display (i : Nat) (h : i < 2 ^ 32) :
    parse_index ('[' :: (natDigits i ++ [']'])) = some ([], i) := by
  have hrw : natDigits i ++ [']'] = natDigits i ++ ']' :: ([] : List Char) := rfl
  rw [hrw, parse_index_goodRun (natDigits i) [] (goodRun_natDigits i), natDigits_filter i,
    (natDigits_spec i).2.2, if_pos h]

/-- `parse_index` rejects any input that does not open with `[`. -/
theorem parse_index_not_bracket {c : Char} (s : List Char) (h : ¬ c = '[') :
    parse_index (c :: s) = none := by
  rw [parse_index]
  rw [if_neg h]

/-! ## Claim theorems -/

/-- Claim C1: for every constructible `Access` value — `Index u` with
`u < 2^32`, `Member id` with a valid identifier — parsing the display
rendering returns the value with an empty remainder; `Index i` displays as
`[i]` in decimal with no underscores, and `Member id` displays as `.id`. -/
theorem access_display_roundtrip :
    ∀ a : Access, a.Constructible →
      Access.parse a.display = some ([], a)
      ∧ (∀ i : Nat, (Access.Index i).display = '[' :: (natDigits i ++ [']'])
          ∧ (natDigits i).all (fun c => isDecDigit c && (c != '_')) = true)
      ∧ (∀ id : List Char, (Access.Member id).display = '.' :: id) := by
  intro a h
  refine ⟨?_, ?_, fun id => rfl⟩
  · cases a with
    | Index i =>
      have hi : i < 2 ^ 32 := h
      show Access.parse ('[' :: (natDigits i ++ [']'])) = some ([], Access.Index i)
      rw [Access.parse, parse_index_display i hi]
    | Member id =>
      have hid : validIdentifier id = true := h
      show Access.parse ('.' :: id) = some ([], Access.Member id)
      rw [Access.parse, parse_index_not_bracket id (by decide)]
      dsimp only
      rw [if_pos rfl, identifierParse_valid id hid]
  · intro i
    refine ⟨rfl, List.all_eq_true.mpr fun c hc => ?_⟩
    obtain ⟨h1, h2⟩ := (natDigits_spec i).2.1 c hc
    simp [h1, h2]

/-- Witness for C1 at `Index 0` and `Member "foo"`. -/
theorem access_display_roundtrip_witness :
    (Access.Index 0).Constructible
    ∧ (Access.Member ['f', 'o', 'o']).Constructible
    ∧ Access.parse (Access.Index 0).display = some ([], Access.Index 0)
    ∧ Access.parse (Access.Member ['f', 'o', 'o']).display
        = some ([], Access.Member ['f', 'o', 'o']) :=
  ⟨by decide, by decide,
    (access_display_roundtrip (Access.Index 0) (by decide)).1,
    (access_display_roundtrip (Access.Member ['f', 'o', 'o']) (by decide)).1⟩

/-- Claim C2: `parse_index` succeeds exactly on inputs that open with `[`,
continue with a run of digits each followed by any number of underscores,
and close with `]`; the value is the underscore-stripped run read as a
decimal unsigned 32-bit integer; the empty run `[]` fails, and a stripped
run beyond `2^32 - 1` fails. -/
theorem parse_index_correct :
    (∀ (s r : List Char) (v : Nat), parse_index s = some (r, v) ↔
        ∃ run, goodRun run = true ∧ s = '[' :: (run ++ ']' :: r) ∧
          digitsVal (run.filter (fun c => c != '_')) = v ∧ v < 2 ^ 32)
    ∧ parse_index ('[' :: ']' :: []) = none
    ∧ (∀ (run r : List Char), goodRun run = true →
        2 ^ 32 ≤ digitsVal (run.filter (fun c => c != '_')) →
        parse_index ('[' :: (run ++ ']' :: r)) = none) := by
  refine ⟨parse_index_some_iff, ?_, ?_⟩
  · rw [parse_index]
    rw [if_pos rfl]
    rw [@digitRun_not_digit ']' [] (by decide)]
    simp
  · intro run r hgood hover
    rw [parse_index_goodRun run r hgood, if_neg (by omega)]

/-- Witness for C2: `[7]` parses to 7; `[4294967296]` overflows `u32` and
fails. -/
theorem parse_index_correct_witness :
    goodRun ['4', '2', '9', '4', '9', '6', '7', '2', '9', '6'] = true
    ∧ 2 ^ 32 ≤ digitsVal
        ((['4', '2', '9', '4', '9', '6', '7', '2', '9', '6']).filter (fun c => c != '_'))
    ∧ parse_index ('[' :: (['4', '2', '9', '4', '9', '6', '7', '2', '9', '6'] ++ ']' :: []))
        = none
    ∧ parse_index ('[' :: (['7'] ++ ']' :: [])) = some ([], 7) :=
  ⟨by decide, by decide,
    parse_index_correct.2.2 _ [] (by decide) (by decide),
    (parse_index_correct.1 _ [] 7).mpr ⟨['7'], by decide, rfl, by decide, by decide⟩⟩

/-- Claim C6: `from_str` succeeds with `v` exactly when `parse` succeeds
with value `v` and empty remainder; a successful parse with nonempty
remainder fails naming the remainder; a failed parse fails. -/
theorem access_from_str_correct :
    ∀ s : List Char,
      (∀ v : Access, Access.from_str s = .ok v ↔ Access.parse s = some ([], v))
      ∧ (∀ (rem : List Char) (obj : Access), Access.parse s = some (rem, obj) → rem ≠ [] →
          Access.from_str s = .error
            ("Failed to parse string. Found invalid character in: \"" ++ rem.asString ++ "\""))
      ∧ (Access.parse s = none →
          Access.from_str s = .error "Failed to parse string.") := by
  intro s
  refine ⟨fun v => ?_, fun rem obj hp hne => ?_, fun hp => ?_⟩
  · cases hp : Access.parse s with
    | none =>
      rw [Access.from_str, hp]
      simp
    | some p =>
      obtain ⟨rem, obj⟩ := p
      rw [Access.from_str, hp]
      dsimp only
      cases hrem : rem with
      | nil =>
        simp only [List.isEmpty_nil, if_true]
        constructor
        · intro h
          cases h
          rfl
        · intro h
          simp only [Option.some.injEq, Prod.mk.injEq] at h
          rw [h.2]
      | cons c t =>
        simp only [List.isEmpty_cons, Bool.false_eq_true, if_false]
        constructor
        · intro h
          cases h
        · intro h
          simp at h
  · rw [Access.from_str, hp]
    dsimp only
    rw [if_neg (by simp [List.isEmpty_iff, hne])]
  · rw [Access.from_str, hp]

/-- Witness for C6: `.a` parses fully; `.a)` leaves the remainder `)` and
`from_str` reports it; the empty string fails to parse and `from_str`
propagates the failure. -/
theorem access_from_str_correct_witness :
    Access.from_str ['.', 'a'] = .ok (Access.Member ['a'])
    ∧ Access.parse ['.', 'a', ')'] = some ([')'], Access.Member ['a'])
    ∧ Access.from_str ['.', 'a', ')'] = .error
        ("Failed to parse string. Found invalid character in: \"" ++ [')'].asString ++ "\"")
    ∧ Access.parse ([] : List Char) = none
    ∧ Access.from_str ([] : List Char) = .error "Failed to parse string." :=
  ⟨((access_from_str_correct ['.', 'a']).1 (Access.Member ['a'])).mpr (by decide),
    by decide,
    (access_from_str_correct ['.', 'a', ')']).2.1 [')'] (Access.Member ['a']) (by decide)
      (by decide),
    by decide,
    (access_from_str_correct []).2.2 (by decide)⟩

/-- Claim C10: the `Debug` rendering of an `Access` equals its `Display`
rendering. -/
theorem access_debug_eq_display (a : Access) : Access.debug a = Access.display a := rfl

/-- Claim C3: `ArrayType::new` rejects a zero length with the
"must have at least one element" error, rejects a length above
`MAX_ARRAY_ENTRIES` with an error naming the ceiling, and succeeds on every
in-range length, holding exactly the given element type and length. -/
theorem arrayType_new_correct {E : Type} (maxArrayEntries : Nat) (e : E) (len : Nat) :
    (len = 0 → ArrayType.new maxArrayEntries e len =
      .error "The array must have at least one element")
    ∧ (maxArrayEntries < len → ArrayType.new maxArrayEntries e len =
      .error ("The array must have at most " ++ toString maxArrayEntries ++ " elements"))
    ∧ (1 ≤ len → len ≤ maxArrayEntries → ArrayType.new maxArrayEntries e len =
      .ok { element_type := e, length := len }) := by
  refine ⟨fun h0 => ?_, fun hover => ?_, fun h1 h2 => ?_⟩
  · rw [ArrayType.new, if_pos h0]
  · rw [ArrayType.new, if_neg (by omega), if_pos hover]
  · rw [ArrayType.new, if_neg (by omega), if_neg (by omega)]

/-- Witness for C3 with ceiling 32: length 0 and length 33 fail with the
stated errors, length 4 succeeds with the given fields. -/
theorem arrayType_new_correct_witness :
    ArrayType.new 32 () 0 = .error "The array must have at least one element"
    ∧ ArrayType.new 32 () 33 =
        .error ("The array must have at most " ++ toString 32 ++ " elements")
    ∧ ArrayType.new 32 () 4 = .ok { element_type := (), length := 4 } :=
  ⟨(arrayType_new_correct 32 () 0).1 rfl,
    (arrayType_new_correct 32 () 33).2.1 (by omega),
    (arrayType_new_correct 32 () 4).2.2 (by omega) (by omega)⟩

/-- Claim C4: for a `Flags` implementation whose bitmasks live in the top
`BIT_SIZE` bits, `from_u8_remove_flags` returns the same optional flag as
`from_u8`; on a match it clears exactly the matched bitmask's bits of the
byte and keeps every other bit — in particular all low `8 − BIT_SIZE`
payload bits; on no match the byte is returned unmodified. -/
theorem flags_from_u8_remove_flags_correct {F : Type} (inst : FlagsImpl F) (b : Nat)
    (hbit : inst.BIT_SIZE ≤ 8) (hb : b < 256)
    (hmask : ∀ f : F, inst.u8_bitmask f < 256 ∧
      inst.u8_bitmask f % 2 ^ (8 - inst.BIT_SIZE) = 0) :
    (inst.from_u8_remove_flags b).1 = inst.from_u8 b
    ∧ (∀ f : F, inst.from_u8 b = some f →
        (∀ i : Nat, i < 8 →
          (inst.from_u8_remove_flags b).2.testBit i =
            (!(inst.u8_bitmask f).testBit i && b.testBit i))
        ∧ (∀ i : Nat, i < 8 - inst.BIT_SIZE →
            (inst.from_u8_remove_flags b).2.testBit i = b.testBit i))
    ∧ (inst.from_u8 b = none → (inst.from_u8_remove_flags b).2 = b) := by
  cases hf : inst.from_u8 b with
  | none =>
    rw [FlagsImpl.from_u8_remove_flags, hf]
    dsimp only
    exact ⟨rfl, fun f h => Option.noConfusion h, fun _ => rfl⟩
  | some f0 =>
    rw [FlagsImpl.from_u8_remove_flags, hf]
    dsimp only
    refine ⟨rfl, fun f hsome => ?_, fun h => Option.noConfusion h⟩
    have hff : f = f0 := by
      cases hsome
      rfl
    subst hff
    have hbits : ∀ i : Nat, i < 8 →
        (b &&& (255 ^^^ inst.u8_bitmask f)).testBit i =
          (!(inst.u8_bitmask f).testBit i && b.testBit i) := by
      intro i hi
      rw [Nat.testBit_land, Nat.testBit_xor]
      have h255 : (255 : Nat).testBit i = true := by
        have : (255 : Nat) = 2 ^ 8 - 1 := by norm_num
        rw [this, Nat.testBit_two_pow_sub_one]
        simpa using hi
      rw [h255]
      cases (inst.u8_bitmask f).testBit i <;> cases b.testBit i <;> rfl
    refine ⟨hbits, fun i hi => ?_⟩
    have hmlow : (inst.u8_bitmask f).testBit i = false := by
      have hmod := (hmask f).2
      have : (inst.u8_bitmask f).testBit i =
          (inst.u8_bitmask f % 2 ^ (8 - inst.BIT_SIZE)).testBit i := by
        rw [Nat.testBit_mod_two_pow]
        simp [hi]
      rw [this, hmod]
      simp
    rw [hbits i (by omega), hmlow]
    simp

/-- Witness for C4 at `boolFlags` and byte `0xCB`. -/
theorem flags_from_u8_remove_flags_correct_witness :
    boolFlags.BIT_SIZE ≤ 8 ∧ (203 : Nat) < 256
    ∧ ((boolFlags.from_u8_remove_flags 203).1 = boolFlags.from_u8 203
      ∧ (∀ f : Bool, boolFlags.from_u8 203 = some f →
          (∀ i : Nat, i < 8 →
            (boolFlags.from_u8_remove_flags 203).2.testBit i =
              (!(boolFlags.u8_bitmask f).testBit i && (203 : Nat).testBit i))
          ∧ (∀ i : Nat, i < 8 - boolFlags.BIT_SIZE →
              (boolFlags.from_u8_remove_flags 203).2.testBit i = (203 : Nat).testBit i))
      ∧ (boolFlags.from_u8 203 = none → (boolFlags.from_u8_remove_flags 203).2 = 203)) :=
  ⟨by decide, by decide,
    flags_from_u8_remove_flags_correct boolFlags 203 (by decide) (by decide)
      (fun f => match f with
        | true => ⟨by decide, by decide⟩
        | false => ⟨by decide, by decide⟩)⟩

/-- Claim C5: for every lawful implementation of `CanonicalSerialize`, every
value, and each compress mode, `serialized_size` equals exactly the number
of bytes `serialize_with_mode` writes. -/
theorem serialized_size_agreement {α : Type} (inst : LawfulCanonicalSerialize α)
    (a : α) (c : Compress) :
    inst.serialized_size a c = (inst.serialize_with_mode a c).length :=
  inst.size_agreement a c

/-- Witness for C5 at the concrete little-endian serializer. -/
theorem serialized_size_agreement_witness :
    leU32Serializer.serialized_size 300 Compress.Yes =
      (leU32Serializer.serialize_with_mode 300 Compress.Yes).length :=
  serialized_size_agreement leU32Serializer 300 Compress.Yes

/-- Claim C7: `batch_check` visits the items in order, calling `check` on
each; it short-circuits at the first failing item, returning that item's
error without calling `check` on any later item, and succeeds when every
item's `check` succeeds. -/
theorem batch_check_correct {α ε : Type} (check : α → Except ε Unit) :
    (∀ (l1 : List α) (x : α) (l2 : List α) (e : ε),
      (∀ y ∈ l1, check y = .ok ()) → check x = .error e →
        batch_check check (l1 ++ x :: l2) = .error e
        ∧ batch_check_trace check (l1 ++ x :: l2) = (.error e, l1 ++ [x]))
    ∧ (∀ l : List α, (∀ y ∈ l, check y = .ok ()) → batch_check check l = .ok ())
    ∧ (∀ l : List α, batch_check check l = (batch_check_trace check l).1) := by
  refine ⟨fun l1 x l2 e hok hx => ?_, fun l hok => ?_, fun l => ?_⟩
  · induction l1 with
    | nil =>
      simp only [List.nil_append]
      rw [batch_check, batch_check_trace, hx]
      exact ⟨rfl, rfl⟩
    | cons y ys ih =>
      have hy : check y = .ok () := hok y (by simp)
      have hys : ∀ z ∈ ys, check z = .ok () := fun z hz => hok z (by simp [hz])
      obtain ⟨ih1, ih2⟩ := ih hys
      simp only [List.cons_append]
      rw [batch_check, batch_check_trace, hy, ih2]
      exact ⟨ih1, rfl⟩
  · induction l with
    | nil => rfl
    | cons y ys ih =>
      have hy : check y = .ok () := hok y (by simp)
      rw [batch_check, hy]
      exact ih fun z hz => hok z (by simp [hz])
  · induction l with
    | nil => rfl
    | cons y ys ih =>
      rw [batch_check, batch_check_trace]
      cases hy : check y with
      | error e => rfl
      | ok u =>
        cases u
        rw [ih]

/-- Witness for C7: checking `[0, 0, 3, 7]` with a check that fails on
nonzero values stops at `3` with its error, never visiting `7`. -/
theorem batch_check_correct_witness :
    (∀ y ∈ [0, 0], checkZero y = .ok ())
    ∧ checkZero 3 = .error "nonzero"
    ∧ batch_check checkZero ([0, 0] ++ 3 :: [7]) = .error "nonzero"
    ∧ batch_check_trace checkZero ([0, 0] ++ 3 :: [7]) = (.error "nonzero", [0, 0] ++ [3]) :=
  have hok : ∀ y ∈ [0, 0], checkZero y = .ok () := by
    intro y hy
    rcases List.mem_cons.mp hy with h | h
    · subst h; rfl
    · rcases List.mem_cons.mp h with h2 | h2
      · subst h2; rfl
      · cases h2
  ⟨hok, rfl,
    ((batch_check_correct checkZero).1 [0, 0] 3 [7] "nonzero" hok rfl).1,
    ((batch_check_correct checkZero).1 [0, 0] 3 [7] "nonzero" hok rfl).2⟩

/-- Claim C8: each of the four serialize and four deserialize convenience
entry points equals the mode-threaded entry point at its documented mode
pair. -/
theorem convenience_methods_eq_modes {α : Type} (s : CanonicalSerialize α)
    (d : CanonicalDeserialize α) (a : α) (reader : List Nat) :
    s.serialize_compressed a = s.serialize_with_mode a Compress.Yes
    ∧ s.compressed_size a = s.serialized_size a Compress.Yes
    ∧ s.serialize_uncompressed a = s.serialize_with_mode a Compress.No
    ∧ s.uncompressed_size a = s.serialized_size a Compress.No
    ∧ d.deserialize_compressed reader
        = d.deserialize_with_mode reader Compress.Yes Validate.Yes
    ∧ d.deserialize_compressed_unchecked reader
        = d.deserialize_with_mode reader Compress.Yes Validate.No
    ∧ d.deserialize_uncompressed reader
        = d.deserialize_with_mode reader Compress.No Validate.Yes
    ∧ d.deserialize_uncompressed_unchecked reader
        = d.deserialize_with_mode reader Compress.No Validate.No :=
  ⟨rfl, rfl, rfl, rfl, rfl, rfl, rfl, rfl⟩

/-- Claim C9: `batch_check` on the empty sequence succeeds, and calls
`check` on no item at all. -/
theorem batch_check_nil {α ε : Type} (check : α → Except ε Unit) :
    batch_check check [] = .ok () ∧ batch_check_trace check [] = (.ok (), []) :=
  ⟨rfl, rfl⟩

end SnarkVM
